import Mathlib

/-!
Shallow embedding of `treeme.py`: a directory-tree lister and file bundler.

The script walks a directory tree, writes an ASCII tree of the visible
entries, and collects the root-relative paths of the files selected for
bundling; a second pass concatenates the selected files into one bundle
string.  This file models the traversal-and-filter engine
(`build_tree_and_collect_files` / `_walk`), the configuration parsing
(`parse_csv_set`, `normalized_exts`), the glob matching
(`matches_any_glob`, Python's `fnmatch`), and the bundle writer
(`write_bundle`), and proves the specification claims about them.

Modelling conventions:
* the filesystem is an inductive tree (`FS`); a directory carries a
  `DirStatus` describing what happens when it is listed (`ok`,
  `permissionDenied` for a `PermissionError`, `notFound` for a
  `FileNotFoundError` raised by a directory that vanished between listing
  and visiting);
* paths are lists of name segments relative to the scanned root;
* Python's stable `sorted` is modelled by a stable insertion sort over the
  same key `(is_file, name.lower())`: a stable sort with a fixed total
  preorder has a unique result, so this is extensionally the same list;
* Python's `str.lower` is modelled on the ASCII fragment, which is the
  fragment the script's own documentation and defaults use.
-/

namespace Treeme

/-! ### Characters and strings: `str.lower`, `str.startswith`, `Path.suffix` -/

/-- ASCII lowercasing of one character, modelling Python `str.lower` on the
ASCII fragment: `A`–`Z` (code points 65–90) map 32 code points up. -/
def lowerChar (c : Char) : Char :=
  if h : 65 ≤ c.toNat ∧ c.toNat ≤ 90 then
    Char.ofNatAux (c.toNat + 32) (Or.inl (by omega))
  else c

/-- Model of Python `str.lower` (ASCII fragment): lowercase every character. -/
def lowerStr (s : String) : String :=
  String.mk (s.data.map lowerChar)

/-- Model of Python `str.startswith`: the first characters of `s` are `p`. -/
def strStartsWith (s p : String) : Bool :=
  s.data.take p.data.length == p.data

/-- Model of `pathlib.PurePath.suffix`: the extension of the name including
the dot; empty when the last dot is at position 0 (hidden files like
`.bashrc`), at the very end (`archive.`), or absent. -/
def pathSuffix (name : String) : String :=
  let cs := name.data
  match cs.reverse.findIdx? (fun c => c == '.') with
  | none => ""
  | some k =>
    let i := cs.length - 1 - k
    if 0 < i ∧ i < cs.length - 1 then String.mk (cs.drop i) else ""

/-- Boolean string comparison `a ≤ b`, the code-point lexicographic order
Python uses to compare the (lowercased) names in the sort key. -/
def strLEb (a b : String) : Bool :=
  !(decide (b < a))

/-! ### Shell-glob matching: Python `fnmatch` -/

/-- Scan a character-class body for the closing `]`, returning the content
before it and the remaining pattern after it (`fnmatch.translate`'s
`pat.find("]", j)`). -/
def findClose : List Char → Option (List Char × List Char)
  | [] => none
  | ']' :: rest => some ([], rest)
  | c :: rest => (findClose rest).map (fun q => (c :: q.1, q.2))

/-- Split a `[...]` character class: the characters after the `[` are
examined for an optional leading `!` (negation) and an optional literal
leading `]`, then scanned to the closing `]`.  `none` when there is no
closing bracket, in which case `[` is a literal character. -/
def splitClass (cs : List Char) : Option (Bool × List Char × List Char) :=
  match cs with
  | '!' :: cs1 =>
    match cs1 with
    | ']' :: t => (findClose t).map (fun q => (true, ']' :: q.1, q.2))
    | _ => (findClose cs1).map (fun q => (true, q.1, q.2))
  | _ =>
    match cs with
    | ']' :: t => (findClose t).map (fun q => (false, ']' :: q.1, q.2))
    | _ => (findClose cs).map (fun q => (false, q.1, q.2))

/-- Interpret a character-class body as inclusive ranges: `a-z` is a range,
any other character stands for itself (a lone or trailing `-` is literal). -/
def classRanges : List Char → List (Char × Char)
  | a :: '-' :: b :: rest => (a, b) :: classRanges rest
  | a :: rest => (a, a) :: classRanges rest
  | [] => []

/-- Does character `c` match the (possibly negated) class body? -/
def inClass (neg : Bool) (content : List Char) (c : Char) : Bool :=
  let m := (classRanges content).any (fun q => q.1 ≤ c && c ≤ q.2)
  if neg then !m else m

/-- Core shell-glob matcher, modelling the regex produced by
`fnmatch.translate`: `*` matches any run of characters (newlines and `/`
included), `?` matches one character, `[...]`/`[!...]` match classes, an
unterminated `[` is literal, and the whole string must be consumed. -/
def globMatch : List Char → List Char → Bool
  | [], [] => true
  | [], _ :: _ => false
  | '*' :: ps, s =>
    globMatch ps s ||
      (match s with
       | [] => false
       | _ :: cs => globMatch ('*' :: ps) cs)
  | '?' :: _, [] => false
  | '?' :: ps, _ :: cs => globMatch ps cs
  | '[' :: ps, s =>
    (match splitClass ps with
     | none =>
       match s with
       | '[' :: cs => globMatch ps cs
       | _ => false
     | some q =>
       match s with
       | [] => false
       | c :: cs => inClass q.1 q.2.1 c && globMatch q.2.2 cs)
  | p :: ps, c :: cs => p == c && globMatch ps cs
  | _ :: _, [] => false
  termination_by p s => (s.length, p.length)

/-- Model of `fnmatch.fnmatch(name, pat)` on a POSIX system (where
`os.path.normcase` is the identity). -/
def fnmatch (name pat : String) : Bool :=
  globMatch pat.data name.data

/-- `matches_any_glob` from the source: test the bare filename and the
root-relative POSIX path against every ignore pattern. -/
def matches_any_glob (name : String) (relSegs : List String)
    (patterns : List String) : Bool :=
  if patterns.isEmpty then false
  else patterns.any (fun pat =>
    fnmatch name pat || fnmatch (String.intercalate "/" relSegs) pat)

/-! ### Configuration parsing -/

/-- `AUTO_EXCLUDES` from the source. -/
def AUTO_EXCLUDES : List String := [".git", ".idea", ".venv", "venv"]

/-- `DEFAULT_EXTS` from the source. -/
def DEFAULT_EXTS : List String := [".txt", ".sh", ".py", ".sql"]

/-- Model of Python `str.split(",")`: cut the character list at every
comma; a trailing comma yields a trailing empty field. -/
def splitComma : List Char → List (List Char)
  | [] => [[]]
  | ',' :: rest => [] :: splitComma rest
  | c :: rest =>
    match splitComma rest with
    | [] => [[c]]
    | g :: gs => (c :: g) :: gs

/-- Model of Python `str.strip()`: drop leading and trailing whitespace. -/
def strTrim (s : String) : String :=
  String.mk (((s.data.dropWhile Char.isWhitespace).reverse.dropWhile
    Char.isWhitespace).reverse)

/-- `parse_csv_set` from the source: split on commas, strip whitespace,
drop blank entries.  Python returns a set; membership is what matters, so
the model keeps the list. -/
def parse_csv_set (s : String) : List String :=
  if s = "" then []
  else ((splitComma s.data).map (fun part => strTrim (String.mk part))).filter
    (fun part => part ≠ "")

/-- `normalized_exts` from the source: on an empty/absent argument return
the defaults; otherwise split and strip, then give every entry without a
leading dot one, lowercasing only in that branch (the already-dotted
branch is left unlowercased, exactly as in the source). -/
def normalized_exts (csvExts : Option String) : List String :=
  match csvExts with
  | none => DEFAULT_EXTS
  | some s =>
    if s = "" then DEFAULT_EXTS
    else
      (((splitComma s.data).map (fun e => strTrim (String.mk e))).filter
          (fun e => e ≠ "")).map
        (fun e => if strStartsWith e "." then e else lowerStr ("." ++ e))

/-- The allowed-extensions set `main` actually passes to the walk
(line 165 of the source): `{e.lower() for e in normalized_exts(args.exts)}`. -/
def resolvedExts (csvExts : Option String) : List String :=
  (normalized_exts csvExts).map lowerStr

/-! ### The filesystem model and the traversal configuration -/

/-- Outcome of listing a directory (`Path.iterdir` in `_walk`'s `try`):
it yields entries, raises `PermissionError`, or raises `FileNotFoundError`
because the directory vanished between listing and visiting. -/
inductive DirStatus where
  | ok
  | permissionDenied
  | notFound
deriving DecidableEq, Repr

/-- A filesystem entry: a file or a directory with its listing behaviour.
`isLink` records `Path.is_symlink()`. -/
inductive FS where
  | file (name : String) (isLink : Bool)
  | dir (name : String) (isLink : Bool) (status : DirStatus) (entries : List FS)
deriving Repr

/-- Entry name (`Path.name`). -/
def FS.name : FS → String
  | .file n _ => n
  | .dir n _ _ _ => n

/-- `Path.is_symlink()`. -/
def FS.isLink : FS → Bool
  | .file _ l => l
  | .dir _ l _ _ => l

/-- `Path.is_file()`: true exactly for file entries. -/
def FS.isFile : FS → Bool
  | .file _ _ => true
  | .dir _ _ _ _ => false

/-- `Path.is_dir()`: true exactly for directory entries. -/
def FS.isDir : FS → Bool
  | .file _ _ => false
  | .dir _ _ _ _ => true

/-- The resolved configuration one run of the tool uses: excluded directory
names, ignore globs, allowed extensions, always-include filenames, and the
output basenames to skip (`skip_names` in the source). -/
structure Config where
  excludes : List String
  ignoreGlobs : List String
  allowedExts : List String
  includeNames : List String
  skipNames : List String

/-! ### Sorting: Python's `sorted` with key `(is_file, name.lower())` -/

/-- The tuple comparison Python performs on the sort key
`(p.is_file(), p.name.lower())`: `False` sorts before `True`, ties are
broken by the lexicographic order on the lowercased name. -/
def keyLEb (a b : Bool × String) : Bool :=
  (!a.1 && b.1) || (a.1 == b.1 && strLEb a.2 b.2)

/-- The sort key of `_walk`'s `sorted` call. -/
def sortKey (p : FS) : Bool × String :=
  (p.isFile, lowerStr p.name)

/-- `p` sorts no later than `q` under the source's key. -/
def pyLEb (p q : FS) : Bool :=
  keyLEb (sortKey p) (sortKey q)

/-- Stable insertion of one element: it goes before the first element that
is not `≤` it, so elements with an equal key keep their original relative
order — the defining property of Python's stable `sorted`. -/
def sinsert (a : FS) : List FS → List FS
  | [] => [a]
  | b :: bs => if pyLEb a b then a :: b :: bs else b :: sinsert a bs

/-- Stable insertion sort, extensionally equal to Python's stable `sorted`
under the same total preorder. -/
def ssort : List FS → List FS
  | [] => []
  | a :: l => sinsert a (ssort l)

/-! ### Visibility filtering (`_walk`'s `visible` loop) -/

/-- The per-entry filter of `_walk` (lines 94–108): a directory is dropped
when its name is excluded or it matches an ignore glob; a file is dropped
when it is one of the tool's own output names or matches an ignore glob.
`rel` is the root-relative path of the directory being listed. -/
def isVisible (cfg : Config) (rel : List String) : FS → Bool
  | .dir n _ _ _ =>
    !(cfg.excludes.contains n) && !(matches_any_glob n (rel ++ [n]) cfg.ignoreGlobs)
  | .file n _ =>
    !(cfg.skipNames.contains n) && !(matches_any_glob n (rel ++ [n]) cfg.ignoreGlobs)

/-- The `visible` list of `_walk`: drop symlinks while listing, sort by
`(is_file, name.lower())`, then apply the exclusion/ignore/output filter. -/
def visibleEntries (cfg : Config) (rel : List String) (es : List FS) : List FS :=
  (ssort ((es.filter (fun p => !p.isLink)))).filter (isVisible cfg rel)

theorem sizeOf_sinsert (a : FS) (l : List FS) :
    sizeOf (sinsert a l) = 1 + sizeOf a + sizeOf l := by
  induction l with
  | nil => simp [sinsert]
  | cons b bs ih =>
    simp only [sinsert]
    by_cases h : pyLEb a b = true
    · simp [h]
    · simp [h, ih]
      omega

theorem sizeOf_ssort (l : List FS) : sizeOf (ssort l) = sizeOf l := by
  induction l with
  | nil => rfl
  | cons a l ih => simp [ssort, sizeOf_sinsert, ih]

theorem sizeOf_filter_le (p : FS → Bool) (l : List FS) :
    sizeOf (l.filter p) ≤ sizeOf l := by
  induction l with
  | nil => simp
  | cons a l ih =>
    by_cases h : p a = true
    · simp [List.filter_cons, h]; omega
    · simp only [List.filter_cons, if_neg h, List.cons.sizeOf_spec]
      · omega

theorem sizeOf_visibleEntries_le (cfg : Config) (rel : List String) (es : List FS) :
    sizeOf (visibleEntries cfg rel es) ≤ sizeOf es := by
  have h1 := sizeOf_filter_le (isVisible cfg rel) (ssort (es.filter (fun p => !p.isLink)))
  have h2 := sizeOf_ssort (es.filter (fun p => !p.isLink))
  have h3 := sizeOf_filter_le (fun p => !p.isLink) es
  simp only [visibleEntries]
  omega

/-! ### The walk (`_walk` in the source) -/

/-- Process an already-filtered `visible` list, in order: emit each entry's
tree line, recurse into directories (handling the two listing failures the
source catches), and collect the relative path of each file that passes
the extension / always-include rule.  Returns (tree lines, collected
relative paths). -/
def walkVis (cfg : Config) (rel : List String) (pre : String) :
    List FS → List String × List (List String)
  | [] => ([], [])
  | FS.dir nm lk st es :: rest =>
    let isLast := rest.isEmpty
    let sub :=
      match st with
      | DirStatus.ok =>
        walkVis cfg (rel ++ [nm]) (pre ++ (if isLast then "    " else "│   "))
          (visibleEntries cfg (rel ++ [nm]) es)
      | DirStatus.permissionDenied =>
        ([(pre ++ (if isLast then "    " else "│   ")) ++ "└── [permission denied]"], [])
      | DirStatus.notFound => ([], [])
    let rr := walkVis cfg rel pre rest
    ((pre ++ (if isLast then "└── " else "├── ") ++ nm ++ "/") :: (sub.1 ++ rr.1),
     sub.2 ++ rr.2)
  | FS.file nm _ :: rest =>
    let rr := walkVis cfg rel pre rest
    ((pre ++ (if rest.isEmpty then "└── " else "├── ") ++ nm) :: rr.1,
     (if cfg.allowedExts.contains (lowerStr (pathSuffix nm))
         || cfg.includeNames.contains nm
      then [rel ++ [nm]] else []) ++ rr.2)
  termination_by l => sizeOf l
  decreasing_by
  all_goals simp
  all_goals (have h := sizeOf_visibleEntries_le cfg (rel ++ [nm]) es; omega)

/-- One call of `_walk` on a directory: the `try`/`except` around
`iterdir`, then the visible-list processing. -/
def walkNode (cfg : Config) (rel : List String) (pre : String)
    (st : DirStatus) (es : List FS) : List String × List (List String) :=
  match st with
  | DirStatus.ok => walkVis cfg rel pre (visibleEntries cfg rel es)
  | DirStatus.permissionDenied => ([pre ++ "└── [permission denied]"], [])
  | DirStatus.notFound => ([], [])

/-- `build_tree_and_collect_files`: the root header line followed by the
walk of the root, and the collected relative paths.  `skip_names` is the
set of the two output basenames. -/
def build_tree_and_collect_files (excludes ignoreGlobs allowedExts includeNames : List String)
    (treeOutName bundleOutName : String) (rootName : String)
    (st : DirStatus) (es : List FS) : List String × List (List String) :=
  let cfg : Config :=
    ⟨excludes, ignoreGlobs, allowedExts, includeNames, [treeOutName, bundleOutName]⟩
  let r := walkNode cfg [] "" st es
  ((rootName ++ "/") :: r.1, r.2)

/-! ### Observers of the walk, used to state the claims -/

/-- The bundle-inclusion rule of the spec, on a collected relative path:
the last segment is the filename; it is selected when its lowercased
extension is an allowed extension or the exact filename is always
included. -/
def inclRule (cfg : Config) (q : List String) : Bool :=
  cfg.allowedExts.contains (lowerStr (pathSuffix (q.getLastD "")))
    || cfg.includeNames.contains (q.getLastD "")

/-- All visible files the walk encounters, in traversal order, with no
extension filtering: the same recursion as `walkVis`, collecting every
file's relative path. -/
def visFiles (cfg : Config) (rel : List String) : List FS → List (List String)
  | [] => []
  | FS.dir nm _ st es :: rest =>
    (match st with
     | DirStatus.ok => visFiles cfg (rel ++ [nm]) (visibleEntries cfg (rel ++ [nm]) es)
     | _ => []) ++ visFiles cfg rel rest
  | FS.file nm _ :: rest => (rel ++ [nm]) :: visFiles cfg rel rest
  termination_by l => sizeOf l
  decreasing_by
  all_goals simp
  all_goals (have h := sizeOf_visibleEntries_le cfg (rel ++ [nm]) es; omega)

/-- All visible files of one directory visit (cf. `walkNode`). -/
def visFilesNode (cfg : Config) (rel : List String) (st : DirStatus)
    (es : List FS) : List (List String) :=
  match st with
  | DirStatus.ok => visFiles cfg rel (visibleEntries cfg rel es)
  | _ => []

mutual
/-- Replace the subtree of every directory whose name is excluded by the
empty listing, recursively.  The walk never visiting an excluded
directory's subtree is expressed as invariance under this pruning. -/
def pruneFS (cfg : Config) : FS → FS
  | FS.file n l => FS.file n l
  | FS.dir n l st es =>
    FS.dir n l st (if cfg.excludes.contains n then [] else pruneList cfg es)

/-- `pruneFS` mapped over a listing. -/
def pruneList (cfg : Config) : List FS → List FS
  | [] => []
  | x :: xs => pruneFS cfg x :: pruneList cfg xs
end

mutual
/-- Remove every symlink entry from the tree, recursively.  The walk never
showing, descending or bundling a symlink is expressed as invariance under
this removal. -/
def dropLinksFS : FS → FS
  | FS.file n l => FS.file n l
  | FS.dir n l st es => FS.dir n l st (dropLinksList es)

/-- Remove symlinks from a listing and recurse into the rest. -/
def dropLinksList : List FS → List FS
  | [] => []
  | x :: xs =>
    if x.isLink then dropLinksList xs else dropLinksFS x :: dropLinksList xs
end

mutual
/-- Remove every file whose basename is one of the output names
(`skip_names`), at every depth.  The walk omitting such files from tree
and bundle is expressed as invariance under this removal. -/
def dropSkipsFS (cfg : Config) : FS → FS
  | FS.file n l => FS.file n l
  | FS.dir n l st es => FS.dir n l st (dropSkipsList cfg es)

/-- Remove output-named files from a listing and recurse into the rest. -/
def dropSkipsList (cfg : Config) : List FS → List FS
  | [] => []
  | x :: xs =>
    if x.isFile && cfg.skipNames.contains x.name then dropSkipsList cfg xs
    else dropSkipsFS cfg x :: dropSkipsList cfg xs
end

/-- The ordering the spec describes for each directory's visible entries:
every directory sorts before every file, and entries of the same kind are
ordered by their lowercased names. -/
def dirsFirstCI (p q : FS) : Prop :=
  (p.isFile = false ∧ q.isFile = true)
    ∨ (p.isFile = q.isFile ∧ lowerStr p.name ≤ lowerStr q.name)

/-! ### The bundle writer (`write_bundle` in the source) -/

/-- Outcome of `Path.read_text(encoding="utf-8", errors="replace")`: the
decoded text, or the message of the exception it raised. -/
inductive ReadResult where
  | ok (text : String)
  | err (msg : String)

/-- The 80-character rule line `"=" * 80`. -/
def RULE : String := String.mk (List.replicate 80 '=')

/-- `write_bundle`: for each selected relative path, in order, write a
blank-line pair, a rule line, the `FILE:` header with the POSIX relative
path, another rule line, then the file's text — or an inline error marker
when reading raised. -/
def write_bundle (reader : List String → ReadResult) :
    List (List String) → String
  | [] => ""
  | rel :: rest =>
    "\n\n" ++ RULE ++ "\n" ++ "FILE: " ++ String.intercalate "/" rel ++ "\n"
      ++ RULE ++ "\n"
      ++ (match reader rel with
          | ReadResult.ok t => t
          | ReadResult.err e => "[ERROR READING FILE: " ++ e ++ "]\n")
      ++ write_bundle reader rest

/-- One per-file block as the spec describes it: rule line, `FILE:` header
with the forward-slash relative path, rule line, then the file's content
(or the inline error marker). -/
def fileBlock (reader : List String → ReadResult) (rel : List String) : String :=
  RULE ++ "\n" ++ "FILE: " ++ String.intercalate "/" rel ++ "\n" ++ RULE ++ "\n"
    ++ (match reader rel with
        | ReadResult.ok t => t
        | ReadResult.err e => "[ERROR READING FILE: " ++ e ++ "]\n")

/-- The bundle as the claim states it: the blocks, with a blank-line pair
only between consecutive blocks. -/
def bundleClaim (reader : List String → ReadResult) (files : List (List String)) : String :=
  String.intercalate "\n\n" (files.map (fileBlock reader))

/-! ### Lemmas about lowercasing -/

theorem toNat_lowerChar (c : Char) :
    (lowerChar c).toNat =
      if 65 ≤ c.toNat ∧ c.toNat ≤ 90 then c.toNat + 32 else c.toNat := by
  unfold lowerChar
  split
  · simp [Char.ofNatAux, Char.toNat, UInt32.toNat]
  · rfl

theorem lowerChar_lowerChar (c : Char) : lowerChar (lowerChar c) = lowerChar c := by
  by_cases h : 65 ≤ c.toNat ∧ c.toNat ≤ 90
  · have ht : (lowerChar c).toNat = c.toNat + 32 := by
      rw [toNat_lowerChar, if_pos h]
    rw [lowerChar, dif_neg (by omega)]
  · have h0 : lowerChar c = c := dif_neg h
    rw [h0, h0]

theorem lowerStr_data (s : String) : (lowerStr s).data = s.data.map lowerChar := rfl

theorem lowerStr_lowerStr (s : String) : lowerStr (lowerStr s) = lowerStr s := by
  simp [lowerStr, List.map_map, Function.comp_def, lowerChar_lowerChar]

theorem lowerChar_dot : lowerChar '.' = '.' := by decide

theorem strStartsWith_dot_iff (s : String) :
    strStartsWith s "." = true ↔ s.data.take 1 = ['.'] := by
  have hd : (".").data = ['.'] := rfl
  simp [strStartsWith, hd]

theorem strStartsWith_lowerStr_dot (s : String) (h : strStartsWith s "." = true) :
    strStartsWith (lowerStr s) "." = true := by
  rw [strStartsWith_dot_iff] at h ⊢
  rw [lowerStr_data, ← List.map_take, h]
  simp [lowerChar_dot]

/-! ### Lemmas about the sort key and the stable sort -/

theorem strLEb_total (a b : String) : strLEb a b || strLEb b a := by
  simp only [strLEb, Bool.or_eq_true, Bool.not_eq_true', decide_eq_false_iff_not]
  by_cases h : b < a
  · exact Or.inr (lt_asymm h)
  · exact Or.inl h

theorem strLEb_trans {a b c : String} (h1 : strLEb a b) (h2 : strLEb b c) :
    strLEb a c := by
  simp only [strLEb, Bool.not_eq_true', decide_eq_false_iff_not] at *
  intro hca
  exact h1 (lt_of_le_of_lt (not_lt.mp h2) hca)

theorem pyLEb_total (p q : FS) : pyLEb p q || pyLEb q p := by
  simp only [pyLEb, keyLEb]
  cases hp : (sortKey p).1 <;> cases hq : (sortKey q).1 <;>
    simp [strLEb_total]

theorem pyLEb_trans {p q r : FS} (h1 : pyLEb p q) (h2 : pyLEb q r) :
    pyLEb p r := by
  simp only [pyLEb, keyLEb, Bool.or_eq_true, Bool.and_eq_true, Bool.not_eq_true',
    beq_iff_eq] at h1 h2 ⊢
  rcases h1 with ⟨hp, hq⟩ | ⟨hpq, hs1⟩ <;> rcases h2 with ⟨hq2, hr⟩ | ⟨hqr, hs2⟩
  · rw [hq] at hq2
    exact absurd hq2 (by simp)
  · exact Or.inl ⟨hp, hqr ▸ hq⟩
  · exact Or.inl ⟨hpq.trans hq2, hr⟩
  · exact Or.inr ⟨hpq.trans hqr, strLEb_trans hs1 hs2⟩

theorem mem_sinsert {x a : FS} {l : List FS} :
    x ∈ sinsert a l ↔ x = a ∨ x ∈ l := by
  induction l with
  | nil => simp [sinsert]
  | cons b bs ih =>
    by_cases h : pyLEb a b = true
    · simp [sinsert, h]
    · simp [sinsert, h, ih]
      tauto

theorem mem_ssort {x : FS} {l : List FS} : x ∈ ssort l ↔ x ∈ l := by
  induction l with
  | nil => simp [ssort]
  | cons a l ih => simp [ssort, mem_sinsert, ih]

theorem sinsert_eq_cons {a : FS} {l : List FS} (h : ∀ x ∈ l, pyLEb a x) :
    sinsert a l = a :: l := by
  cases l with
  | nil => rfl
  | cons b bs => simp [sinsert, h b (by simp)]

theorem pairwise_sinsert {a : FS} {l : List FS}
    (hl : l.Pairwise (fun p q => pyLEb p q = true)) :
    (sinsert a l).Pairwise (fun p q => pyLEb p q = true) := by
  induction l with
  | nil => simp [sinsert]
  | cons b bs ih =>
    rcases List.pairwise_cons.mp hl with ⟨hb, hbs⟩
    by_cases h : pyLEb a b = true
    · rw [show sinsert a (b :: bs) = a :: b :: bs by simp [sinsert, h]]
      refine List.pairwise_cons.mpr ⟨?_, hl⟩
      intro x hx
      rcases List.mem_cons.mp hx with rfl | hx
      · exact h
      · exact pyLEb_trans h (hb x hx)
    · rw [show sinsert a (b :: bs) = b :: sinsert a bs by simp [sinsert, h]]
      refine List.pairwise_cons.mpr ⟨?_, ih hbs⟩
      intro x hx
      rcases mem_sinsert.mp hx with rfl | hx
      · have := pyLEb_total x b
        simp [h] at this
        exact this
      · exact hb x hx

theorem pairwise_ssort (l : List FS) :
    (ssort l).Pairwise (fun p q => pyLEb p q = true) := by
  induction l with
  | nil => simp [ssort]
  | cons a l ih => exact pairwise_sinsert ih

theorem filter_sinsert (p : FS → Bool) (a : FS) (l : List FS)
    (hl : l.Pairwise (fun x y => pyLEb x y = true)) :
    (sinsert a l).filter p =
      if p a then sinsert a (l.filter p) else l.filter p := by
  induction l with
  | nil => by_cases h : p a = true <;> simp [sinsert, h]
  | cons b bs ih =>
    rcases List.pairwise_cons.mp hl with ⟨hb, hbs⟩
    by_cases h : pyLEb a b = true
    · have hall : ∀ x ∈ (b :: bs).filter p, pyLEb a x := by
        intro x hx
        rcases List.mem_filter.mp hx with ⟨hx, _⟩
        rcases List.mem_cons.mp hx with rfl | hx
        · exact h
        · exact pyLEb_trans h (hb x hx)
      rw [show sinsert a (b :: bs) = a :: b :: bs by simp [sinsert, h]]
      by_cases hpa : p a = true
      · rw [List.filter_cons_of_pos hpa, if_pos hpa, sinsert_eq_cons hall]
      · rw [List.filter_cons_of_neg (by simp [hpa]), if_neg (by simp [hpa])]
    · rw [show sinsert a (b :: bs) = b :: sinsert a bs by simp [sinsert, h]]
      by_cases hpb : p b = true
      · rw [List.filter_cons_of_pos hpb, List.filter_cons_of_pos hpb, ih hbs]
        by_cases hpa : p a = true
        · rw [if_pos hpa, if_pos hpa,
            show sinsert a (b :: bs.filter p) = b :: sinsert a (bs.filter p) by
              simp [sinsert, h]]
        · rw [if_neg (by simp [hpa]), if_neg (by simp [hpa])]
      · rw [List.filter_cons_of_neg (by simp [hpb]),
          List.filter_cons_of_neg (by simp [hpb]), ih hbs]

theorem filter_ssort (p : FS → Bool) (l : List FS) :
    (ssort l).filter p = ssort (l.filter p) := by
  induction l with
  | nil => simp [ssort]
  | cons a l ih =>
    rw [ssort, filter_sinsert p a (ssort l) (pairwise_ssort l), ih]
    by_cases h : p a = true
    · rw [if_pos h, List.filter_cons_of_pos h, ssort]
    · rw [if_neg (by simp [h]), List.filter_cons_of_neg (by simp [h])]

theorem sinsert_map (f : FS → FS)
    (hkey : ∀ p q, pyLEb (f p) (f q) = pyLEb p q) (a : FS) (l : List FS) :
    sinsert (f a) (l.map f) = (sinsert a l).map f := by
  induction l with
  | nil => rfl
  | cons b bs ih =>
    by_cases h : pyLEb a b = true
    · simp [sinsert, hkey, h]
    · simp [sinsert, hkey, h, ih]

theorem ssort_map (f : FS → FS)
    (hkey : ∀ p q, pyLEb (f p) (f q) = pyLEb p q) (l : List FS) :
    ssort (l.map f) = (ssort l).map f := by
  induction l with
  | nil => rfl
  | cons a l ih => rw [List.map_cons, ssort, ih, sinsert_map f hkey, ssort]

theorem isEmpty_map (f : FS → FS) (l : List FS) :
    (l.map f).isEmpty = l.isEmpty := by
  cases l <;> rfl

/-! ### Unfolding equations for the walk -/

theorem walkVis_nil (cfg : Config) (rel : List String) (pre : String) :
    walkVis cfg rel pre [] = ([], []) := by
  simp [walkVis]

theorem walkVis_cons_dir_ok (cfg : Config) (rel : List String) (pre nm : String)
    (lk : Bool) (es rest : List FS) :
    walkVis cfg rel pre (FS.dir nm lk DirStatus.ok es :: rest) =
      ((pre ++ (if rest.isEmpty then "└── " else "├── ") ++ nm ++ "/") ::
        ((walkVis cfg (rel ++ [nm]) (pre ++ (if rest.isEmpty then "    " else "│   "))
            (visibleEntries cfg (rel ++ [nm]) es)).1 ++ (walkVis cfg rel pre rest).1),
       (walkVis cfg (rel ++ [nm]) (pre ++ (if rest.isEmpty then "    " else "│   "))
            (visibleEntries cfg (rel ++ [nm]) es)).2 ++ (walkVis cfg rel pre rest).2) := by
  simp [walkVis]

theorem walkVis_cons_dir_perm (cfg : Config) (rel : List String) (pre nm : String)
    (lk : Bool) (es rest : List FS) :
    walkVis cfg rel pre (FS.dir nm lk DirStatus.permissionDenied es :: rest) =
      ((pre ++ (if rest.isEmpty then "└── " else "├── ") ++ nm ++ "/") ::
        ((pre ++ (if rest.isEmpty then "    " else "│   ")) ++ "└── [permission denied]") ::
        (walkVis cfg rel pre rest).1,
       (walkVis cfg rel pre rest).2) := by
  simp [walkVis]

theorem walkVis_cons_dir_notFound (cfg : Config) (rel : List String) (pre nm : String)
    (lk : Bool) (es rest : List FS) :
    walkVis cfg rel pre (FS.dir nm lk DirStatus.notFound es :: rest) =
      ((pre ++ (if rest.isEmpty then "└── " else "├── ") ++ nm ++ "/") ::
        (walkVis cfg rel pre rest).1,
       (walkVis cfg rel pre rest).2) := by
  simp [walkVis]

theorem walkVis_cons_file (cfg : Config) (rel : List String) (pre nm : String)
    (lk : Bool) (rest : List FS) :
    walkVis cfg rel pre (FS.file nm lk :: rest) =
      ((pre ++ (if rest.isEmpty then "└── " else "├── ") ++ nm) ::
        (walkVis cfg rel pre rest).1,
       (if cfg.allowedExts.contains (lowerStr (pathSuffix nm))
           || cfg.includeNames.contains nm
        then [rel ++ [nm]] else []) ++ (walkVis cfg rel pre rest).2) := by
  simp [walkVis]

/-! ### Shape preservation for the pruning / removal transforms -/

theorem pruneFS_name (cfg : Config) (p : FS) : (pruneFS cfg p).name = p.name := by
  cases p <;> simp [pruneFS, FS.name]

theorem pruneFS_isFile (cfg : Config) (p : FS) : (pruneFS cfg p).isFile = p.isFile := by
  cases p <;> simp [pruneFS, FS.isFile]

theorem pruneFS_isLink (cfg : Config) (p : FS) : (pruneFS cfg p).isLink = p.isLink := by
  cases p <;> simp [pruneFS, FS.isLink]

theorem pyLEb_prune (cfg : Config) (p q : FS) :
    pyLEb (pruneFS cfg p) (pruneFS cfg q) = pyLEb p q := by
  simp [pyLEb, sortKey, pruneFS_name, pruneFS_isFile]

theorem isVisible_prune (cfg : Config) (rel : List String) (p : FS) :
    isVisible cfg rel (pruneFS cfg p) = isVisible cfg rel p := by
  cases p <;> simp [pruneFS, isVisible, FS.name]

theorem pruneList_eq_map (cfg : Config) (l : List FS) :
    pruneList cfg l = l.map (pruneFS cfg) := by
  induction l with
  | nil => rfl
  | cons x xs ih => simp [pruneList, ih]

theorem dropLinksFS_name (p : FS) : (dropLinksFS p).name = p.name := by
  cases p <;> simp [dropLinksFS, FS.name]

theorem dropLinksFS_isFile (p : FS) : (dropLinksFS p).isFile = p.isFile := by
  cases p <;> simp [dropLinksFS, FS.isFile]

theorem dropLinksFS_isLink (p : FS) : (dropLinksFS p).isLink = p.isLink := by
  cases p <;> simp [dropLinksFS, FS.isLink]

theorem pyLEb_dropLinks (p q : FS) :
    pyLEb (dropLinksFS p) (dropLinksFS q) = pyLEb p q := by
  simp [pyLEb, sortKey, dropLinksFS_name, dropLinksFS_isFile]

theorem isVisible_dropLinks (cfg : Config) (rel : List String) (p : FS) :
    isVisible cfg rel (dropLinksFS p) = isVisible cfg rel p := by
  cases p <;> simp [dropLinksFS, isVisible, FS.name]

theorem dropLinksList_eq (l : List FS) :
    dropLinksList l = (l.filter (fun p => !p.isLink)).map dropLinksFS := by
  induction l with
  | nil => rfl
  | cons x xs ih =>
    by_cases h : x.isLink = true <;> simp [dropLinksList, List.filter_cons, h, ih]

theorem dropSkipsFS_name (cfg : Config) (p : FS) : (dropSkipsFS cfg p).name = p.name := by
  cases p <;> simp [dropSkipsFS, FS.name]

theorem dropSkipsFS_isFile (cfg : Config) (p : FS) :
    (dropSkipsFS cfg p).isFile = p.isFile := by
  cases p <;> simp [dropSkipsFS, FS.isFile]

theorem dropSkipsFS_isLink (cfg : Config) (p : FS) :
    (dropSkipsFS cfg p).isLink = p.isLink := by
  cases p <;> simp [dropSkipsFS, FS.isLink]

theorem pyLEb_dropSkips (cfg : Config) (p q : FS) :
    pyLEb (dropSkipsFS cfg p) (dropSkipsFS cfg q) = pyLEb p q := by
  simp [pyLEb, sortKey, dropSkipsFS_name, dropSkipsFS_isFile]

theorem isVisible_dropSkips (cfg : Config) (rel : List String) (p : FS) :
    isVisible cfg rel (dropSkipsFS cfg p) = isVisible cfg rel p := by
  cases p <;> simp [dropSkipsFS, isVisible, FS.name]

theorem dropSkipsList_eq (cfg : Config) (l : List FS) :
    dropSkipsList cfg l =
      (l.filter (fun p => !(p.isFile && cfg.skipNames.contains p.name))).map
        (dropSkipsFS cfg) := by
  induction l with
  | nil => rfl
  | cons x xs ih =>
    by_cases h : (x.isFile && cfg.skipNames.contains x.name) = true
    · rw [List.filter_cons_of_neg (by simpa using h), ← ih]
      simp only [dropSkipsList, if_pos h]
    · have h2 : x.isFile = true → x.name ∉ cfg.skipNames := by simpa using h
      rw [List.filter_cons_of_pos ?_, List.map_cons, ← ih]
      · simp only [dropSkipsList, if_neg h]
      · simp only [Bool.not_eq_true', Bool.and_eq_false_iff]
        cases hf : x.isFile
        · simp
        · simp [h2 hf]

/-! ### `visibleEntries` commutes with the transforms -/

theorem visibleEntries_prune (cfg : Config) (rel : List String) (es : List FS) :
    visibleEntries cfg rel (pruneList cfg es) =
      (visibleEntries cfg rel es).map (pruneFS cfg) := by
  have h1 : ((fun p : FS => !p.isLink) ∘ pruneFS cfg) = (fun p : FS => !p.isLink) := by
    funext p; simp [Function.comp, pruneFS_isLink]
  have h2 : (isVisible cfg rel ∘ pruneFS cfg) = isVisible cfg rel := by
    funext p; simp [Function.comp, isVisible_prune]
  rw [pruneList_eq_map]
  unfold visibleEntries
  rw [List.filter_map, h1, ssort_map _ (pyLEb_prune cfg), List.filter_map, h2]

theorem visibleEntries_dropLinks (cfg : Config) (rel : List String) (es : List FS) :
    visibleEntries cfg rel (dropLinksList es) =
      (visibleEntries cfg rel es).map dropLinksFS := by
  have h1 : ((fun p : FS => !p.isLink) ∘ dropLinksFS) = (fun p : FS => !p.isLink) := by
    funext p; simp [Function.comp, dropLinksFS_isLink]
  have h2 : (isVisible cfg rel ∘ dropLinksFS) = isVisible cfg rel := by
    funext p; simp [Function.comp, isVisible_dropLinks]
  rw [dropLinksList_eq]
  unfold visibleEntries
  rw [List.filter_map, h1, List.filter_filter]
  have h3 : (fun a : FS => !a.isLink && !a.isLink) = (fun a : FS => !a.isLink) := by
    funext a; cases a.isLink <;> rfl
  rw [h3, ssort_map _ pyLEb_dropLinks, List.filter_map, h2]

theorem visibleEntries_dropSkips (cfg : Config) (rel : List String) (es : List FS) :
    visibleEntries cfg rel (dropSkipsList cfg es) =
      (visibleEntries cfg rel es).map (dropSkipsFS cfg) := by
  have h1 : ((fun p : FS => !p.isLink) ∘ dropSkipsFS cfg) = (fun p : FS => !p.isLink) := by
    funext p; simp [Function.comp, dropSkipsFS_isLink]
  have h2 : (isVisible cfg rel ∘ dropSkipsFS cfg) = isVisible cfg rel := by
    funext p; simp [Function.comp, isVisible_dropSkips]
  rw [dropSkipsList_eq]
  unfold visibleEntries
  rw [List.filter_map, h1, ssort_map _ (pyLEb_dropSkips cfg), List.filter_map, h2]
  congr 1
  rw [List.filter_filter, ← filter_ssort, ← filter_ssort, List.filter_filter,
    List.filter_filter]
  congr 1
  funext a
  cases a with
  | dir n l st es2 => simp [FS.isFile, isVisible]
  | file n l =>
    by_cases hc : n ∈ cfg.skipNames <;> simp [isVisible, FS.name, FS.isFile, hc]

/-! ### The walk is invariant under the transforms -/

theorem visibleEntries_no_excluded (cfg : Config) (rel : List String) (es : List FS) :
    ∀ x ∈ visibleEntries cfg rel es, x.isDir = true →
      cfg.excludes.contains x.name = false := by
  intro x hx hdir
  rcases List.mem_filter.mp hx with ⟨_, hvis⟩
  cases x with
  | file n l => simp [FS.isDir] at hdir
  | dir n l st es2 =>
    simp only [isVisible, Bool.and_eq_true, Bool.not_eq_true'] at hvis
    simpa [FS.name] using hvis.1

theorem walkVis_map_prune (cfg : Config) (rel : List String) (pre : String)
    (l : List FS) :
    (∀ x ∈ l, x.isDir = true → cfg.excludes.contains x.name = false) →
    walkVis cfg rel pre (l.map (pruneFS cfg)) = walkVis cfg rel pre l := by
  induction rel, pre, l using walkVis.induct cfg with
  | case1 rel pre => intro _; rfl
  | case2 rel pre nm lk st es rest last ihm ih =>
    intro h
    have hrest : ∀ x ∈ rest, x.isDir = true → cfg.excludes.contains x.name = false :=
      fun x hx => h x (List.mem_cons_of_mem _ hx)
    have hnm : nm ∉ cfg.excludes := by
      have := h (FS.dir nm lk st es) (List.mem_cons_self _ _) (by simp [FS.isDir])
      simpa [FS.name] using this
    cases st with
    | ok =>
      simp only [dite_eq_ite] at ihm
      rw [show last = rest.isEmpty from rfl] at ihm
      rw [List.map_cons,
        show pruneFS cfg (FS.dir nm lk DirStatus.ok es)
            = FS.dir nm lk DirStatus.ok (pruneList cfg es) by simp [pruneFS, hnm],
        walkVis_cons_dir_ok, walkVis_cons_dir_ok, isEmpty_map, visibleEntries_prune,
        ihm (visibleEntries_no_excluded cfg (rel ++ [nm]) es), ih hrest]
    | permissionDenied =>
      rw [List.map_cons,
        show pruneFS cfg (FS.dir nm lk DirStatus.permissionDenied es)
            = FS.dir nm lk DirStatus.permissionDenied (pruneList cfg es) by
          simp [pruneFS, hnm],
        walkVis_cons_dir_perm, walkVis_cons_dir_perm, isEmpty_map, ih hrest]
    | notFound =>
      rw [List.map_cons,
        show pruneFS cfg (FS.dir nm lk DirStatus.notFound es)
            = FS.dir nm lk DirStatus.notFound (pruneList cfg es) by
          simp [pruneFS, hnm],
        walkVis_cons_dir_notFound, walkVis_cons_dir_notFound, isEmpty_map, ih hrest]
  | case3 rel pre nm lk rest ih =>
    intro h
    rw [List.map_cons, show pruneFS cfg (FS.file nm lk) = FS.file nm lk from rfl,
      walkVis_cons_file, walkVis_cons_file, isEmpty_map,
      ih (fun x hx => h x (List.mem_cons_of_mem _ hx))]

theorem walkVis_map_dropLinks (cfg : Config) (rel : List String) (pre : String)
    (l : List FS) :
    walkVis cfg rel pre (l.map dropLinksFS) = walkVis cfg rel pre l := by
  induction rel, pre, l using walkVis.induct cfg with
  | case1 rel pre => rfl
  | case2 rel pre nm lk st es rest last ihm ih =>
    cases st with
    | ok =>
      simp only [dite_eq_ite] at ihm
      rw [show last = rest.isEmpty from rfl] at ihm
      rw [List.map_cons,
        show dropLinksFS (FS.dir nm lk DirStatus.ok es)
            = FS.dir nm lk DirStatus.ok (dropLinksList es) from rfl,
        walkVis_cons_dir_ok, walkVis_cons_dir_ok, isEmpty_map,
        visibleEntries_dropLinks, ihm, ih]
    | permissionDenied =>
      rw [List.map_cons,
        show dropLinksFS (FS.dir nm lk DirStatus.permissionDenied es)
            = FS.dir nm lk DirStatus.permissionDenied (dropLinksList es) from rfl,
        walkVis_cons_dir_perm, walkVis_cons_dir_perm, isEmpty_map, ih]
    | notFound =>
      rw [List.map_cons,
        show dropLinksFS (FS.dir nm lk DirStatus.notFound es)
            = FS.dir nm lk DirStatus.notFound (dropLinksList es) from rfl,
        walkVis_cons_dir_notFound, walkVis_cons_dir_notFound, isEmpty_map, ih]
  | case3 rel pre nm lk rest ih =>
    rw [List.map_cons, show dropLinksFS (FS.file nm lk) = FS.file nm lk from rfl,
      walkVis_cons_file, walkVis_cons_file, isEmpty_map, ih]

theorem walkVis_map_dropSkips (cfg : Config) (rel : List String) (pre : String)
    (l : List FS) :
    walkVis cfg rel pre (l.map (dropSkipsFS cfg)) = walkVis cfg rel pre l := by
  induction rel, pre, l using walkVis.induct cfg with
  | case1 rel pre => rfl
  | case2 rel pre nm lk st es rest last ihm ih =>
    cases st with
    | ok =>
      simp only [dite_eq_ite] at ihm
      rw [show last = rest.isEmpty from rfl] at ihm
      rw [List.map_cons,
        show dropSkipsFS cfg (FS.dir nm lk DirStatus.ok es)
            = FS.dir nm lk DirStatus.ok (dropSkipsList cfg es) from rfl,
        walkVis_cons_dir_ok, walkVis_cons_dir_ok, isEmpty_map,
        visibleEntries_dropSkips, ihm, ih]
    | permissionDenied =>
      rw [List.map_cons,
        show dropSkipsFS cfg (FS.dir nm lk DirStatus.permissionDenied es)
            = FS.dir nm lk DirStatus.permissionDenied (dropSkipsList cfg es) from rfl,
        walkVis_cons_dir_perm, walkVis_cons_dir_perm, isEmpty_map, ih]
    | notFound =>
      rw [List.map_cons,
        show dropSkipsFS cfg (FS.dir nm lk DirStatus.notFound es)
            = FS.dir nm lk DirStatus.notFound (dropSkipsList cfg es) from rfl,
        walkVis_cons_dir_notFound, walkVis_cons_dir_notFound, isEmpty_map, ih]
  | case3 rel pre nm lk rest ih =>
    rw [List.map_cons, show dropSkipsFS cfg (FS.file nm lk) = FS.file nm lk from rfl,
      walkVis_cons_file, walkVis_cons_file, isEmpty_map, ih]

theorem walkNode_prune (cfg : Config) (rel : List String) (pre : String)
    (st : DirStatus) (es : List FS) :
    walkNode cfg rel pre st (pruneList cfg es) = walkNode cfg rel pre st es := by
  cases st with
  | ok =>
    simp only [walkNode]
    rw [visibleEntries_prune,
      walkVis_map_prune cfg rel pre _ (visibleEntries_no_excluded cfg rel es)]
  | permissionDenied => rfl
  | notFound => rfl

theorem walkNode_dropLinks (cfg : Config) (rel : List String) (pre : String)
    (st : DirStatus) (es : List FS) :
    walkNode cfg rel pre st (dropLinksList es) = walkNode cfg rel pre st es := by
  cases st with
  | ok =>
    simp only [walkNode]
    rw [visibleEntries_dropLinks, walkVis_map_dropLinks]
  | permissionDenied => rfl
  | notFound => rfl

theorem walkNode_dropSkips (cfg : Config) (rel : List String) (pre : String)
    (st : DirStatus) (es : List FS) :
    walkNode cfg rel pre st (dropSkipsList cfg es) = walkNode cfg rel pre st es := by
  cases st with
  | ok =>
    simp only [walkNode]
    rw [visibleEntries_dropSkips, walkVis_map_dropSkips]
  | permissionDenied => rfl
  | notFound => rfl

/-! ### The collected list is the visible files filtered by the rule -/

theorem inclRule_append (cfg : Config) (rel : List String) (nm : String) :
    inclRule cfg (rel ++ [nm]) =
      (cfg.allowedExts.contains (lowerStr (pathSuffix nm))
        || cfg.includeNames.contains nm) := by
  simp [inclRule, List.getLastD_concat]

theorem walkVis_collect (cfg : Config) (rel : List String) (pre : String)
    (l : List FS) :
    (walkVis cfg rel pre l).2 = (visFiles cfg rel l).filter (inclRule cfg) := by
  induction rel, pre, l using walkVis.induct cfg with
  | case1 rel pre => simp [walkVis_nil, visFiles]
  | case2 rel pre nm lk st es rest last ihm ih =>
    cases st with
    | ok =>
      simp only [dite_eq_ite] at ihm
      rw [show last = rest.isEmpty from rfl] at ihm
      simp only [walkVis_cons_dir_ok, visFiles, List.filter_append]
      rw [ihm, ih]
    | permissionDenied =>
      simp only [walkVis_cons_dir_perm, visFiles, List.filter_append]
      rw [ih]
      simp
    | notFound =>
      simp only [walkVis_cons_dir_notFound, visFiles, List.filter_append]
      rw [ih]
      simp
  | case3 rel pre nm lk rest ih =>
    simp only [walkVis_cons_file, visFiles, List.filter_cons, inclRule_append]
    rw [ih]
    split <;> simp

/-! ### The ordering of each directory's visible entries -/

theorem pyLEb_imp_dirsFirstCI {p q : FS} (h : pyLEb p q = true) : dirsFirstCI p q := by
  simp only [pyLEb, keyLEb, sortKey, Bool.or_eq_true, Bool.and_eq_true,
    Bool.not_eq_true', beq_iff_eq] at h
  rcases h with ⟨h1, h2⟩ | ⟨h1, h2⟩
  · exact Or.inl ⟨h1, h2⟩
  · refine Or.inr ⟨h1, ?_⟩
    simp only [strLEb, Bool.not_eq_true', decide_eq_false_iff_not] at h2
    exact not_lt.mp h2

/-! ### Helpers for the remaining claims -/

theorem strStartsWith_dot_append (e : String) :
    strStartsWith ("." ++ e) "." = true := by
  rw [strStartsWith_dot_iff, String.data_append,
    show (".").data = ['.'] from rfl]
  rfl

theorem walkVis_file_seen (cfg : Config) (rel : List String) (pre nm : String)
    (l : List FS) (hmem : FS.file nm false ∈ l) :
    ((cfg.allowedExts.contains (lowerStr (pathSuffix nm))
        || cfg.includeNames.contains nm) = true →
      (rel ++ [nm]) ∈ (walkVis cfg rel pre l).2)
    ∧ ∃ ln ∈ (walkVis cfg rel pre l).1,
        ln = pre ++ "└── " ++ nm ∨ ln = pre ++ "├── " ++ nm := by
  induction l with
  | nil => simp at hmem
  | cons p rest ih =>
    rcases List.mem_cons.mp hmem with heq | hmem2
    · subst heq
      rw [walkVis_cons_file]
      constructor
      · intro hc
        rw [if_pos hc]
        exact List.mem_append_left _ (by simp)
      · refine ⟨pre ++ (if rest.isEmpty then "└── " else "├── ") ++ nm, by simp, ?_⟩
        by_cases hre : rest.isEmpty = true
        · rw [if_pos hre]; exact Or.inl rfl
        · rw [if_neg hre]; exact Or.inr rfl
    · rcases ih hmem2 with ⟨ihc, ln, hln, hlneq⟩
      cases p with
      | file nm2 lk2 =>
        rw [walkVis_cons_file]
        exact ⟨fun hc => List.mem_append_right _ (ihc hc),
          ln, List.mem_cons_of_mem _ hln, hlneq⟩
      | dir nm2 lk2 st2 es2 =>
        cases st2 with
        | ok =>
          rw [walkVis_cons_dir_ok]
          exact ⟨fun hc => List.mem_append_right _ (ihc hc),
            ln, List.mem_cons_of_mem _ (List.mem_append_right _ hln), hlneq⟩
        | permissionDenied =>
          rw [walkVis_cons_dir_perm]
          exact ⟨ihc, ln, List.mem_cons_of_mem _ (List.mem_cons_of_mem _ hln), hlneq⟩
        | notFound =>
          rw [walkVis_cons_dir_notFound]
          exact ⟨ihc, ln, List.mem_cons_of_mem _ hln, hlneq⟩

/-! ### The claims -/

/-- Claim C1: for every visible file encountered during traversal, the file
is added to the collected bundle list if and only if its extension,
lowercased, is in the allowed-extensions set or its exact filename is in
the always-include set — and the collected list keeps the traversal order:
it is exactly the visible-files list filtered by that rule. -/
theorem collected_iff_ext_or_name (ex gl ae inn : List String) (t b r : String)
    (st : DirStatus) (es : List FS) :
    (build_tree_and_collect_files ex gl ae inn t b r st es).2
      = (visFilesNode ⟨ex, gl, ae, inn, [t, b]⟩ [] st es).filter
          (inclRule ⟨ex, gl, ae, inn, [t, b]⟩) := by
  cases st <;>
    simp [build_tree_and_collect_files, walkNode, visFilesNode, walkVis_collect]

/-- Claim C2: the exclusion check runs before recursion, so an excluded
directory's subtree is never visited: both outputs (tree lines and
collected bundle list) are invariant under replacing the entire subtree of
every excluded-named directory by the empty listing, at every depth. -/
theorem excluded_dir_subtree_never_visited (ex gl ae inn : List String)
    (t b r : String) (st : DirStatus) (es : List FS) :
    build_tree_and_collect_files ex gl ae inn t b r st
        (pruneList ⟨ex, gl, ae, inn, [t, b]⟩ es)
      = build_tree_and_collect_files ex gl ae inn t b r st es := by
  simp only [build_tree_and_collect_files]
  rw [walkNode_prune]

/-- Claim C3 (counterexample): a directory that vanishes between listing
and visiting is not free of traces in the output — its own branch line,
emitted by the parent before the visit, is in the tree. -/
theorem vanished_dir_has_trace :
    "└── gone/" ∈ (build_tree_and_collect_files [] [] [".py"] [] "tree.txt"
        "all_texts.txt" "root" DirStatus.ok
        [FS.dir "gone" false DirStatus.notFound []]).1 := by
  simp only [build_tree_and_collect_files, walkNode]
  rw [show visibleEntries ⟨[], [], [".py"], [], ["tree.txt", "all_texts.txt"]⟩ []
        [FS.dir "gone" false DirStatus.notFound []]
      = [FS.dir "gone" false DirStatus.notFound []] from rfl,
    walkVis_cons_dir_notFound, walkVis_nil]
  simp

/-- Claim C3 (amended): the recursive visit of a vanished directory emits
nothing — no line (in particular no error marker) and no bundle entry; the
only trace left in the output is the directory's own branch line, which
the parent emitted before visiting. -/
theorem vanished_dir_silent_visit (cfg : Config) (rel : List String)
    (pre nm : String) (lk : Bool) (es rest : List FS) :
    walkNode cfg rel pre DirStatus.notFound es = ([], [])
    ∧ walkVis cfg rel pre (FS.dir nm lk DirStatus.notFound es :: rest)
        = ((pre ++ (if rest.isEmpty then "└── " else "├── ") ++ nm ++ "/") ::
            (walkVis cfg rel pre rest).1,
           (walkVis cfg rel pre rest).2) :=
  ⟨rfl, by simp [walkVis]⟩

/-- Claim C4 (counterexample): the bundle is not a plain
blank-pair-separated sequence of blocks — already for a single selected
file, the output starts with a blank-line pair rather than the block's
rule line. -/
theorem bundle_not_plain_separated :
    write_bundle (fun _ => ReadResult.ok "hi\n") [["a.py"]]
      ≠ bundleClaim (fun _ => ReadResult.ok "hi\n") [["a.py"]] := by
  decide

/-- Claim C4 (amended): the bundle is the concatenation, in selected-list
order, of one segment per file, each segment being a blank-line pair
followed by the block (80-character rule line, `FILE:` header with
forward-slash path, another rule line, then the content or error marker);
in particular consecutive blocks are separated by a blank-line pair, and
the bundle begins with one. -/
theorem bundle_block_layout (reader : List String → ReadResult)
    (files : List (List String)) :
    write_bundle reader files
      = (files.map (fun rel => "\n\n" ++ fileBlock reader rel)).foldr
          (fun a acc => a ++ acc) "" := by
  induction files with
  | nil => rfl
  | cons rel rest ih =>
    simp only [write_bundle, fileBlock, List.map_cons, List.foldr_cons, ih]
    simp [String.append_assoc]

/-- Claim C5: every entry of the resolved allowed-extensions set (the set
`main` builds from `normalized_exts` and passes to the walk) is lowercase
and begins with a dot, and an absent or empty extensions list resolves to
the default set `.txt, .sh, .py, .sql`. -/
theorem resolved_exts_normalized :
    (∀ csv : Option String, ∀ x ∈ resolvedExts csv,
      lowerStr x = x ∧ strStartsWith x "." = true)
    ∧ resolvedExts none = [".txt", ".sh", ".py", ".sql"]
    ∧ resolvedExts (some "") = [".txt", ".sh", ".py", ".sql"] := by
  refine ⟨?_, by decide, by decide⟩
  intro csv x hx
  rcases List.mem_map.mp hx with ⟨y, hy, rfl⟩
  refine ⟨lowerStr_lowerStr y, ?_⟩
  apply strStartsWith_lowerStr_dot
  rcases csv with _ | s
  · simp only [normalized_exts, DEFAULT_EXTS, List.mem_cons,
      List.not_mem_nil, or_false] at hy
    rcases hy with rfl | rfl | rfl | rfl <;> decide
  · simp only [normalized_exts] at hy
    by_cases hs : s = ""
    · rw [if_pos hs] at hy
      simp only [DEFAULT_EXTS, List.mem_cons, List.not_mem_nil, or_false] at hy
      rcases hy with rfl | rfl | rfl | rfl <;> decide
    · rw [if_neg hs] at hy
      rcases List.mem_map.mp hy with ⟨e, _, rfl⟩
      by_cases hse : strStartsWith e "." = true
      · rw [if_pos hse]; exact hse
      · rw [if_neg hse]
        exact strStartsWith_lowerStr_dot _ (strStartsWith_dot_append e)

/-- Claim C5 (witness): the user-supplied entry `.PY` resolves to `.py`,
which is lowercase and dot-prefixed. -/
theorem resolved_exts_normalized_witness :
    ".py" ∈ resolvedExts (some ".PY")
    ∧ (lowerStr ".py" = ".py" ∧ strStartsWith ".py" "." = true) :=
  ⟨by decide, resolved_exts_normalized.1 (some ".PY") ".py" (by decide)⟩

/-- Claim C6: within each directory the visible entries are pairwise
ordered by the two-part key the claim describes — every directory before
every file, ties within a kind broken by the lowercased (case-insensitive)
name; the walk emits tree lines and collects bundle files in exactly this
per-directory order, depth-first and pre-order. -/
theorem per_directory_ordering (cfg : Config) (rel : List String)
    (es : List FS) :
    (visibleEntries cfg rel es).Pairwise dirsFirstCI := by
  unfold visibleEntries
  exact List.Pairwise.filter _
    (List.Pairwise.imp (fun h => pyLEb_imp_dirsFirstCI h) (pairwise_ssort _))

/-- Claim C7: a directory whose listing raises `PermissionError` produces
exactly one sentinel line `[permission denied]` right after its own branch
line, its subtree (`es`) is not recursed into (the result does not depend
on it), and the walk continues with the remaining siblings. -/
theorem permission_denied_one_sentinel (cfg : Config) (rel : List String)
    (pre nm : String) (lk : Bool) (es rest : List FS) :
    walkVis cfg rel pre (FS.dir nm lk DirStatus.permissionDenied es :: rest)
      = ((pre ++ (if rest.isEmpty then "└── " else "├── ") ++ nm ++ "/") ::
          ((pre ++ (if rest.isEmpty then "    " else "│   "))
            ++ "└── [permission denied]") ::
          (walkVis cfg rel pre rest).1,
         (walkVis cfg rel pre rest).2) := by
  simp [walkVis]

/-- Claim C8: symbolic links never appear in the tree, are never descended
into, and never contribute to the bundle: both outputs are invariant under
removing every symlink entry from the tree, at every depth. -/
theorem symlinks_never_used (ex gl ae inn : List String) (t b r : String)
    (st : DirStatus) (es : List FS) :
    build_tree_and_collect_files ex gl ae inn t b r st (dropLinksList es)
      = build_tree_and_collect_files ex gl ae inn t b r st es := by
  simp only [build_tree_and_collect_files]
  rw [walkNode_dropLinks]

/-- Claim C9: the output-filename skip matches by basename alone at every
depth: both outputs are invariant under removing, anywhere under the root,
every file whose basename is one of the two output basenames — whether or
not it is an output of this run. -/
theorem output_basenames_skipped (ex gl ae inn : List String) (t b r : String)
    (st : DirStatus) (es : List FS) :
    build_tree_and_collect_files ex gl ae inn t b r st
        (dropSkipsList ⟨ex, gl, ae, inn, [t, b]⟩ es)
      = build_tree_and_collect_files ex gl ae inn t b r st es := by
  simp only [build_tree_and_collect_files]
  rw [walkNode_dropSkips]

/-- Claim C10: excluded-name matching applies only to directories: a
non-symlink file whose name is in the excluded set (and is neither
glob-ignored nor an output name) is still visible, still gets its tree
line, and is still collected when it satisfies the bundle rule. -/
theorem excluded_name_file_still_listed (cfg : Config) (rel : List String)
    (pre nm : String) (es : List FS)
    (hex : nm ∈ cfg.excludes) (hskip : nm ∉ cfg.skipNames)
    (hglob : matches_any_glob nm (rel ++ [nm]) cfg.ignoreGlobs = false)
    (hmem : FS.file nm false ∈ es) :
    FS.file nm false ∈ visibleEntries cfg rel es
    ∧ ((cfg.allowedExts.contains (lowerStr (pathSuffix nm))
          || cfg.includeNames.contains nm) = true →
        (rel ++ [nm]) ∈ (walkNode cfg rel pre DirStatus.ok es).2)
    ∧ ∃ ln ∈ (walkNode cfg rel pre DirStatus.ok es).1,
        ln = pre ++ "└── " ++ nm ∨ ln = pre ++ "├── " ++ nm := by
  have hvismem : FS.file nm false ∈ visibleEntries cfg rel es := by
    unfold visibleEntries
    refine List.mem_filter.mpr ⟨?_, ?_⟩
    · exact mem_ssort.mpr (List.mem_filter.mpr ⟨hmem, by simp [FS.isLink]⟩)
    · simp [isVisible, FS.name, hskip, hglob]
  have h2 := walkVis_file_seen cfg rel pre nm (visibleEntries cfg rel es) hvismem
  exact ⟨hvismem, h2.1, h2.2⟩

/-- Claim C10 (witness): with `data.txt` in the excluded set, the file
`data.txt` in the root is still visible, collected (extension `.txt`
allowed), and given a tree line. -/
theorem excluded_name_file_still_listed_witness :
    "data.txt" ∈ (Config.mk ["data.txt"] [] [".txt"] []
        ["tree.txt", "all_texts.txt"]).excludes
    ∧ "data.txt" ∉ (Config.mk ["data.txt"] [] [".txt"] []
        ["tree.txt", "all_texts.txt"]).skipNames
    ∧ matches_any_glob "data.txt" ([] ++ ["data.txt"])
        (Config.mk ["data.txt"] [] [".txt"] []
          ["tree.txt", "all_texts.txt"]).ignoreGlobs = false
    ∧ FS.file "data.txt" false ∈ [FS.file "data.txt" false]
    ∧ (FS.file "data.txt" false ∈ visibleEntries
          (Config.mk ["data.txt"] [] [".txt"] [] ["tree.txt", "all_texts.txt"]) []
          [FS.file "data.txt" false]
      ∧ (((Config.mk ["data.txt"] [] [".txt"] []
              ["tree.txt", "all_texts.txt"]).allowedExts.contains
            (lowerStr (pathSuffix "data.txt"))
          || (Config.mk ["data.txt"] [] [".txt"] []
              ["tree.txt", "all_texts.txt"]).includeNames.contains "data.txt") = true →
          ([] ++ ["data.txt"]) ∈ (walkNode
            (Config.mk ["data.txt"] [] [".txt"] [] ["tree.txt", "all_texts.txt"])
            [] "" DirStatus.ok [FS.file "data.txt" false]).2)
      ∧ ∃ ln ∈ (walkNode
            (Config.mk ["data.txt"] [] [".txt"] [] ["tree.txt", "all_texts.txt"])
            [] "" DirStatus.ok [FS.file "data.txt" false]).1,
          ln = "" ++ "└── " ++ "data.txt" ∨ ln = "" ++ "├── " ++ "data.txt") :=
  ⟨by decide, by decide, by decide, by simp,
   excluded_name_file_still_listed
     (Config.mk ["data.txt"] [] [".txt"] [] ["tree.txt", "all_texts.txt"])
     [] "" "data.txt" [FS.file "data.txt" false]
     (by decide) (by decide) (by decide) (by simp)⟩

end Treeme
